import Mathlib

/-!
Shallow embedding of `downloader.py`: a GitHub release/branch downloader with
progress reporting.  Python strings are modelled as `List Char`, floats in
progress fractions as `ℚ`, exceptions as `Except` over message strings, the
network and the filesystem as explicit environments passed to each operation.
-/

/-- Python string literal as a character list. -/
def pstr (s : String) : List Char := s.data

/-- Python `str.lower()` restricted to the character-wise case map. -/
def lowerStr (l : List Char) : List Char := l.map Char.toLower

/-- Python `pat in s` substring test on character lists. -/
def containsSub (pat : List Char) : List Char → Bool
  | [] => pat.isEmpty
  | c :: rest => pat.isPrefixOf (c :: rest) || containsSub pat rest

/-- Python `os.path.join` abstracted to separator concatenation. -/
def pathJoin (a b : List Char) : List Char := a ++ pstr "/" ++ b

/-- The literal `github.com/` that both regexes and the URL split scan for. -/
def ghL : List Char := pstr "github.com/"

/-- One attempted match of `github\.com/([^/]+)/([^/]+)` anchored at the start
of `l`: the literal, then a maximal nonempty run of non-`/` characters (owner),
a `/`, and a second maximal nonempty run (repo).  Returns the two groups. -/
def ghMatchAt (l : List Char) : Option (List Char × List Char) :=
  if ghL.isPrefixOf l then
    let rest := l.drop 11
    let owner := rest.takeWhile (fun c => c != '/')
    match rest.drop owner.length with
    | '/' :: rest2 =>
      let repo := rest2.takeWhile (fun c => c != '/')
      if owner = [] ∨ repo = [] then none else some (owner, repo)
    | _ => none
  else none

/-- Python `re.search` for the pattern above: try each start position from the
left, returning the groups of the first position that matches. -/
def reSearchGh : List Char → Option (List Char × List Char)
  | [] => none
  | c :: rest =>
    match ghMatchAt (c :: rest) with
    | some r => some r
    | none => reSearchGh rest

/-- Python `s.replace(".git", "")`: remove every occurrence of `.git`,
scanning left to right. -/
def removeGit : List Char → List Char
  | '.' :: 'g' :: 'i' :: 't' :: rest => removeGit rest
  | c :: rest => c :: removeGit rest
  | [] => []

/-- `get_repo_name` from `downloader.py`: regex-extract the repo segment and
strip `.git` occurrences, else the fixed placeholder. -/
def get_repo_name (repo_url : List Char) : List Char :=
  match reSearchGh repo_url with
  | some (_owner, repo) => removeGit repo
  | none => pstr "downloaded_repo"

/-- Exception values carry only their message string. -/
abbrev Exn := List Char

/-- Environment for `get_default_branch`: the outcome of the one metadata GET
it may issue — an exception, or a status code together with the outcome of
parsing the body and looking up `default_branch`. -/
structure BranchEnv where
  resp : Except Exn (Nat × Except Exn (Option (List Char)))

/-- `get_default_branch` from `downloader.py`.  The second component records
whether a network request was issued. -/
def get_default_branch (repo_url : List Char) (env : BranchEnv) : List Char × Bool :=
  match reSearchGh repo_url with
  | none => (pstr "main", false)
  | some _ =>
    match env.resp with
    | .error _ => (pstr "main", true)
    | .ok (status, body) =>
      if status = 200 then
        match body with
        | .error _ => (pstr "main", true)
        | .ok db => (db.getD (pstr "main"), true)
      else (pstr "main", true)

/-- Python `repo_url.split('github.com/')`, fuelled to make the recursion
structural; `ghSplit` instantiates the fuel with the list length. -/
def ghSplitF : Nat → List Char → List (List Char)
  | _, [] => [[]]
  | 0, l => [l]
  | fuel + 1, c :: rest =>
    if ghL.isPrefixOf (c :: rest) then [] :: ghSplitF fuel ((c :: rest).drop 11)
    else
      match ghSplitF fuel rest with
      | [] => [[c]]
      | h :: t => (c :: h) :: t

/-- Python `repo_url.split('github.com/')`. -/
def ghSplit (l : List Char) : List (List Char) := ghSplitF l.length l

/-- The suffix of `l` after the last occurrence of `github.com/` (scanning
left to right, consuming eleven characters at each occurrence), or `none`
when the literal does not occur.  Fuelled companion of `afterGhLast`. -/
def afterGhLastF : Nat → List Char → Option (List Char)
  | _, [] => none
  | 0, _ => none
  | fuel + 1, c :: rest =>
    if ghL.isPrefixOf (c :: rest) then
      let r := (c :: rest).drop 11
      some ((afterGhLastF fuel r).getD r)
    else afterGhLastF fuel rest

/-- The suffix of a URL after the last occurrence of `github.com/`. -/
def afterGhLast (l : List Char) : Option (List Char) := afterGhLastF l.length l

/-- The branch-archive URL built on line 79 of `downloader.py`:
`https://github.com/` ++ `repo_url.split('github.com/')[-1]` ++
`/archive/refs/heads/` ++ branch ++ `.zip`. -/
def zip_url (repo_url branch : List Char) : List Char :=
  pstr "https://github.com/" ++ (ghSplit repo_url).getLastD [] ++
    pstr "/archive/refs/heads/" ++ branch ++ pstr ".zip"

/-- A progress report: a fraction and a status message. -/
abbrev Prog := ℚ × List Char

/-- A release asset: download URL and file name. -/
structure Asset where
  browser_download_url : List Char
  name : List Char
deriving DecidableEq

/-- The parsed body of the latest-release metadata response. -/
structure Release where
  assets : List Asset
deriving DecidableEq

/-- Outcome of the latest-release metadata GET: `status` is the outcome of
`raise_for_status`, `json` the outcome of parsing the body. -/
structure RelApiResp where
  status : Except Exn Unit
  json : Except Exn Release

/-- One event of a streamed response body: a chunk of bytes as yielded by
`iter_content` (possibly empty), or an exception raised while iterating or
writing the chunk. -/
inductive ChunkEv where
  | chunk (bytes : List Nat) : ChunkEv
  | err (msg : Exn) : ChunkEv
deriving DecidableEq

/-- Outcome of a streamed download GET: `raise_for_status` outcome, the parse
of the `content-length` header (0 when absent), and the body events. -/
structure StreamResp where
  status : Except Exn Unit
  contentLength : Except Exn Nat
  events : List ChunkEv

/-- Environment for `download_latest_release`: the metadata request, the asset
download request, and the outcome of opening the local file. -/
structure RelEnv where
  apiGet : Except Exn RelApiResp
  dlGet : Except Exn StreamResp
  openRes : Except Exn Unit

/-- Observable outcome of `download_latest_release`: the returned value, the
sequence of progress callbacks, and the local file's content (`none` when the
file was never opened). -/
structure RelOut where
  result : Option (List Char)
  trace : List Prog
  file : Option (List Nat)

/-- The failure message `f"Failed to download release: {e}"`. -/
def relFail (e : Exn) : List Char := pstr "Failed to download release: " ++ e

/-- The per-chunk message `f"Downloading {asset_name}..."`. -/
def dlMsg (assetName : List Char) : List Char := pstr "Downloading " ++ assetName ++ pstr "..."

/-- The streaming loop of `download_latest_release` (lines 58–63): write each
nonempty chunk, count its bytes, and when the declared total is positive
report `min(1.0, downloaded/total)`.  Returns the loop outcome, the final file
content, and the emitted reports. -/
def relLoop (total : Nat) (assetName : List Char) :
    List ChunkEv → Nat → List Nat → Except Exn Unit × List Nat × List Prog
  | [], _, file => (.ok (), file, [])
  | .err e :: _, _, file => (.error e, file, [])
  | .chunk b :: rest, downloaded, file =>
    if b.isEmpty then relLoop total assetName rest downloaded file
    else
      let d := downloaded + b.length
      let reports : List Prog :=
        if 0 < total then [(min 1 ((d : ℚ) / (total : ℚ)), dlMsg assetName)] else []
      let out := relLoop total assetName rest d (file ++ b)
      (out.1, out.2.1, reports ++ out.2.2)

/-- `download_latest_release` from `downloader.py`, with the progress callback
present and recorded as the trace. -/
def download_latest_release (owner repo save_path : List Char) (env : RelEnv) : RelOut :=
  let _api_url := pstr "https://api.github.com/repos/" ++ owner ++ pstr "/" ++ repo ++
    pstr "/releases/latest"
  let t0 : List Prog := [(5/100, pstr "Checking latest " ++ repo ++ pstr " release...")]
  match env.apiGet with
  | .error e => ⟨none, t0 ++ [(1, relFail e)], none⟩
  | .ok api =>
    match api.status with
    | .error e => ⟨none, t0 ++ [(1, relFail e)], none⟩
    | .ok _ =>
      match api.json with
      | .error e => ⟨none, t0 ++ [(1, relFail e)], none⟩
      | .ok release =>
        match release.assets with
        | [] => ⟨none, t0 ++ [(1, relFail (pstr "No release assets found."))], none⟩
        | asset :: _ =>
          let local_file := pathJoin save_path asset.name
          let t1 := t0 ++ [(1/10, dlMsg asset.name)]
          match env.dlGet with
          | .error e => ⟨none, t1 ++ [(1, relFail e)], none⟩
          | .ok r =>
            match r.status with
            | .error e => ⟨none, t1 ++ [(1, relFail e)], none⟩
            | .ok _ =>
              match r.contentLength with
              | .error e => ⟨none, t1 ++ [(1, relFail e)], none⟩
              | .ok total =>
                match env.openRes with
                | .error e => ⟨none, t1 ++ [(1, relFail e)], none⟩
                | .ok _ =>
                  let out := relLoop total asset.name r.events 0 []
                  match out.1 with
                  | .error e => ⟨none, t1 ++ out.2.2 ++ [(1, relFail e)], some out.2.1⟩
                  | .ok _ =>
                    ⟨some local_file,
                      t1 ++ out.2.2 ++ [(1, repo ++ pstr " release downloaded successfully.")],
                      some out.2.1⟩

/-- A filesystem entry: a file, or a directory with its children in listing
order. -/
inductive FSTree where
  | file (name : List Char) : FSTree
  | dir (name : List Char) (children : List FSTree) : FSTree

mutual

/-- All file names in the subtree of one entry, as collected by `os.walk`. -/
def treeFiles : FSTree → List (List Char)
  | .file n => [n]
  | .dir _ cs => forestFiles cs

/-- All file names under a list of entries, in walk order. -/
def forestFiles : List FSTree → List (List Char)
  | [] => []
  | t :: ts => treeFiles t ++ forestFiles ts

end

/-- Lines 105–109 of `downloader.py`: the first directory among the children
of `save_path`, in listing order, whose name contains the repository name
case-insensitively; returns its name and children. -/
def findExtracted (repo_name : List Char) : List FSTree → Option (List Char × List FSTree)
  | [] => none
  | FSTree.file _ :: rest => findExtracted repo_name rest
  | FSTree.dir n cs :: rest =>
    if containsSub (lowerStr repo_name) (lowerStr n) then some (n, cs)
    else findExtracted repo_name rest

/-- Lines 105–112: the extracted folder's path and the entry list that
`os.walk` will traverse — the matched subdirectory, or `save_path` itself
when no child matches. -/
def extractedOf (repo_name save_path : List Char) (entries : List FSTree) :
    List Char × List FSTree :=
  match findExtracted repo_name entries with
  | some (n, cs) => (pathJoin save_path n, cs)
  | none => (save_path, entries)

/-- Lines 118–122: the walk finds some file named `installerready.exe`
case-insensitively. -/
def hasInstaller (ts : List FSTree) : Bool :=
  (forestFiles ts).any fun f => decide (lowerStr f = pstr "installerready.exe")

/-- The dictionary returned by `download_github_repo`, with its optional
fields. -/
structure RepoResult where
  status : List Char
  path : Option (List Char)
  repo_name : Option (List Char)
  error : Option (List Char)
deriving DecidableEq

/-- Environment for `download_github_repo`: the branch-resolution request, the
archive GET, and the extraction outcome — on success, the entries of
`save_path` after `extractall`. -/
structure RepoEnv where
  branchEnv : BranchEnv
  zipGet : Except Exn StreamResp
  extract : Except Exn (List FSTree)

/-- Observable outcome of `download_github_repo`. -/
structure GhOut where
  result : RepoResult
  trace : List Prog

/-- The failure message `f"Failed to download {repo_url}: {e}"`. -/
def ghFail (repo_url e : List Char) : List Char :=
  pstr "Failed to download " ++ repo_url ++ pstr ": " ++ e

/-- The message `f"Extracting {repo_name}..."`. -/
def extractMsg (repo_name : List Char) : List Char :=
  pstr "Extracting " ++ repo_name ++ pstr "..."

/-- The streaming loop of `download_github_repo` (lines 91–96): buffer each
nonempty chunk and, when the declared total is positive, report
`min(0.8, downloaded/total * 0.8)`. -/
def ghLoop (total : Nat) (repo_name : List Char) :
    List ChunkEv → Nat → Except Exn Unit × List Prog
  | [], _ => (.ok (), [])
  | .err e :: _, _ => (.error e, [])
  | .chunk b :: rest, downloaded =>
    if b.isEmpty then ghLoop total repo_name rest downloaded
    else
      let d := downloaded + b.length
      let reports : List Prog :=
        if 0 < total then
          [(min (8/10) ((d : ℚ) / (total : ℚ) * (8/10)), dlMsg repo_name)]
        else []
      let out := ghLoop total repo_name rest d
      (out.1, reports ++ out.2)

/-- `download_github_repo` from `downloader.py`, with the progress callback
present and recorded as the trace. -/
def download_github_repo (repo_url save_path : List Char) (env : RepoEnv) : GhOut :=
  let repo_name := get_repo_name repo_url
  let branch := (get_default_branch repo_url env.branchEnv).1
  let _zurl := zip_url repo_url branch
  let t0 : List Prog :=
    [(5/100, pstr "Connecting to " ++ repo_name ++ pstr " (" ++ branch ++ pstr ")...")]
  match env.zipGet with
  | .error e => ⟨⟨pstr "error", none, none, some e⟩, t0 ++ [(1, ghFail repo_url e)]⟩
  | .ok r =>
    match r.status with
    | .error e => ⟨⟨pstr "error", none, none, some e⟩, t0 ++ [(1, ghFail repo_url e)]⟩
    | .ok _ =>
      match r.contentLength with
      | .error e => ⟨⟨pstr "error", none, none, some e⟩, t0 ++ [(1, ghFail repo_url e)]⟩
      | .ok total =>
        let lp := ghLoop total repo_name r.events 0
        match lp.1 with
        | .error e =>
          ⟨⟨pstr "error", none, none, some e⟩, t0 ++ lp.2 ++ [(1, ghFail repo_url e)]⟩
        | .ok _ =>
          let t1 := t0 ++ lp.2 ++ [(85/100, extractMsg repo_name)]
          match env.extract with
          | .error e => ⟨⟨pstr "error", none, none, some e⟩, t1 ++ [(1, ghFail repo_url e)]⟩
          | .ok entries =>
            let ef := extractedOf repo_name save_path entries
            let t2 := t1 ++ [(1, repo_name ++ pstr " downloaded successfully.")]
            ⟨⟨if hasInstaller ef.2 then pstr "ready" else pstr "no_installer",
               some ef.1, some repo_name, none⟩, t2⟩

/-- Whether a body event is a chunk (rather than an exception). -/
def chunkEvOk : ChunkEv → Bool
  | .chunk _ => true
  | .err _ => false

/-- Whether the run of `download_github_repo` under `env` reaches the
extraction step (line 98): the archive GET succeeds, its status check and
content-length parse succeed, and no body event raises. -/
def downloadPhaseOk (env : RepoEnv) : Bool :=
  match env.zipGet with
  | .error _ => false
  | .ok r =>
    (match r.status with | .ok _ => true | .error _ => false) &&
    (match r.contentLength with | .ok _ => true | .error _ => false) &&
    r.events.all chunkEvOk

/-- The bytes of one body event. -/
def chunkBytes : ChunkEv → List Nat
  | .chunk b => b
  | .err _ => []

/-- The concatenated bytes of a list of body events. -/
def joinChunks (evs : List ChunkEv) : List Nat := (evs.map chunkBytes).flatten

/-- Whether an exception arises anywhere along the executed path of
`download_latest_release` under `env`: at the metadata GET, its status check
or body parse, via the raised "No release assets found." condition, at the
asset GET, its status check or content-length parse, at the file open, or at
some body event of the stream. -/
def relRaises (env : RelEnv) : Bool :=
  match env.apiGet with
  | .error _ => true
  | .ok api =>
    match api.status with
    | .error _ => true
    | .ok _ =>
      match api.json with
      | .error _ => true
      | .ok rel =>
        match rel.assets with
        | [] => true
        | _ :: _ =>
          match env.dlGet with
          | .error _ => true
          | .ok r =>
            match r.status with
            | .error _ => true
            | .ok _ =>
              match r.contentLength with
              | .error _ => true
              | .ok _ =>
                match env.openRes with
                | .error _ => true
                | .ok _ => !(r.events.all chunkEvOk)

/-- Whether an exception arises anywhere along the executed path of
`download_github_repo` under `env`: during the download phase (archive GET,
status check, content-length parse, or a body event), or at extraction.
`get_default_branch` never raises. -/
def ghRaises (env : RepoEnv) : Bool :=
  if downloadPhaseOk env then
    match env.extract with
    | .error _ => true
    | .ok _ => false
  else true

/-! ## Helper lemmas -/

theorem isPrefixOf_append_self (p t : List Char) : p.isPrefixOf (p ++ t) = true := by
  induction p with
  | nil => simp [List.isPrefixOf]
  | cons c cs ih => simp [List.isPrefixOf, ih]

theorem exists_append_of_isPrefixOf :
    ∀ (p l : List Char), p.isPrefixOf l = true → ∃ t, l = p ++ t := by
  intro p
  induction p with
  | nil => exact fun l _ => ⟨l, rfl⟩
  | cons c cs ih =>
    intro l h
    cases l with
    | nil => simp [List.isPrefixOf] at h
    | cons d ds =>
      simp only [List.isPrefixOf, Bool.and_eq_true, beq_iff_eq] at h
      obtain ⟨t, ht⟩ := ih ds h.2
      exact ⟨t, by rw [ht, h.1]; rfl⟩

theorem takeWhile_eq_self_of (xs : List Char) (h : '/' ∉ xs) :
    xs.takeWhile (fun c => c != '/') = xs := by
  induction xs with
  | nil => rfl
  | cons c cs ih =>
    have hc : c ≠ '/' := fun hh => h (hh ▸ List.mem_cons_self c cs)
    have hcs : '/' ∉ cs := fun hh => h (List.mem_cons_of_mem _ hh)
    simp [List.takeWhile_cons, hc, ih hcs]

theorem takeWhile_append_stop (xs ys : List Char) (h : '/' ∉ xs) :
    (xs ++ '/' :: ys).takeWhile (fun c => c != '/') = xs := by
  induction xs with
  | nil => simp [List.takeWhile_cons]
  | cons c cs ih =>
    have hc : c ≠ '/' := fun hh => h (hh ▸ List.mem_cons_self c cs)
    have hcs : '/' ∉ cs := fun hh => h (List.mem_cons_of_mem _ hh)
    simp [List.takeWhile_cons, hc, ih hcs]

theorem ghMatchAt_full (owner repo post : List Char)
    (h1 : '/' ∉ owner) (h2 : owner ≠ []) (h3 : '/' ∉ repo) (h4 : repo ≠ [])
    (h5 : post = [] ∨ post.head? = some '/') :
    ghMatchAt (ghL ++ (owner ++ '/' :: (repo ++ post))) = some (owner, repo) := by
  unfold ghMatchAt
  rw [if_pos (isPrefixOf_append_self _ _)]
  have e2 : (ghL ++ (owner ++ '/' :: (repo ++ post))).drop 11 = owner ++ '/' :: (repo ++ post) := by
    have hL : ghL.length = 11 := rfl
    rw [← hL, List.drop_left]
  simp only [e2, takeWhile_append_stop _ _ h1, List.drop_left]
  have e3 : (repo ++ post).takeWhile (fun c => c != '/') = repo := by
    rcases h5 with h5 | h5
    · rw [h5, List.append_nil]; exact takeWhile_eq_self_of _ h3
    · cases post with
      | nil => simp at h5
      | cons q qs =>
        simp only [List.head?] at h5
        injection h5 with h5
        rw [h5]
        exact takeWhile_append_stop _ _ h3
  simp only [e3]
  rw [if_neg]
  rintro (h | h) <;> [exact h2 h; exact h4 h]

theorem ghMatchAt_none (l : List Char) (h : ghL.isPrefixOf l = false) :
    ghMatchAt l = none := by
  unfold ghMatchAt
  rw [if_neg]
  simp [h]

theorem reSearchGh_skip :
    ∀ (pre rest : List Char),
      (∀ i, i < pre.length → ghL.isPrefixOf ((pre ++ rest).drop i) = false) →
      reSearchGh (pre ++ rest) = reSearchGh rest := by
  intro pre
  induction pre with
  | nil => intro rest _; rfl
  | cons c cs ih =>
    intro rest h
    have h0 : ghL.isPrefixOf (c :: (cs ++ rest)) = false := h 0 (Nat.succ_pos _)
    show reSearchGh (c :: (cs ++ rest)) = reSearchGh rest
    rw [reSearchGh, ghMatchAt_none _ h0]
    exact ih rest fun i hi => h (i + 1) (Nat.succ_lt_succ hi)

/-! ## Claims C2, C8, C9 -/

/-- C2 counterexample: `get_repo_name` does not strip only a trailing `.git`:
on `.../o/a.gitb` it removes the interior `.git` and returns `ab`, not
`a.gitb`; and the derived name can even end in `.git`. -/
theorem claim_C2_counterexample :
    get_repo_name (pstr "https://github.com/o/a.gitb") = pstr "ab" ∧
    pstr "ab" ≠ pstr "a.gitb" ∧
    get_repo_name (pstr "https://github.com/o/.gi.gitt") = pstr ".git" :=
  ⟨by decide, by decide, by decide⟩

/-- C2 (amended): for every URL whose first `github.com/` occurrence is
followed by a nonempty slash-free owner segment, a slash, and a nonempty
slash-free repo segment, `get_repo_name` returns the repo segment with every
occurrence of `.git` removed (not only a trailing one); on any non-matching
URL it returns the fixed placeholder; the function is total. -/
theorem claim_C2_amended (pre owner repo post : List Char)
    (hpre : ∀ i, i < pre.length →
      ghL.isPrefixOf ((pre ++ (ghL ++ (owner ++ '/' :: (repo ++ post)))).drop i) = false)
    (h1 : '/' ∉ owner) (h2 : owner ≠ []) (h3 : '/' ∉ repo) (h4 : repo ≠ [])
    (h5 : post = [] ∨ post.head? = some '/') :
    get_repo_name (pre ++ (ghL ++ (owner ++ '/' :: (repo ++ post)))) = removeGit repo ∧
    (∀ url, reSearchGh url = none → get_repo_name url = pstr "downloaded_repo") := by
  constructor
  · unfold get_repo_name
    rw [reSearchGh_skip pre _ hpre]
    have hm : ghMatchAt (ghL ++ (owner ++ '/' :: (repo ++ post))) = some (owner, repo) :=
      ghMatchAt_full owner repo post h1 h2 h3 h4 h5
    have e : ghL ++ (owner ++ '/' :: (repo ++ post)) =
        'g' :: (pstr "ithub.com/" ++ (owner ++ '/' :: (repo ++ post))) := rfl
    rw [e] at hm ⊢
    rw [reSearchGh, hm]
  · intro url h
    unfold get_repo_name
    rw [h]

/-- C2 witness: a URL with owner `me` and repo `proj.git` resolves to
`removeGit "proj.git" = "proj"`. -/
theorem claim_C2_witness :
    get_repo_name
        (pstr "https://" ++ (ghL ++ (pstr "me" ++ '/' :: (pstr "proj.git" ++ [])))) =
      removeGit (pstr "proj.git") ∧
    removeGit (pstr "proj.git") = pstr "proj" :=
  ⟨(claim_C2_amended (pstr "https://") (pstr "me") (pstr "proj.git") [] (by decide) (by decide)
      (by decide) (by decide) (by decide) (by decide)).1,
   by decide⟩

/-- C8: `get_default_branch` is total; a URL with no owner/repo match yields
the fixed default `main` with no network request; a request exception, a
non-200 status, and a body-parse exception (even at status 200, where the
code calls `response.json()`) all likewise yield `main`. -/
theorem claim_C8 (url : List Char) (env : BranchEnv) :
    (reSearchGh url = none → get_default_branch url env = (pstr "main", false)) ∧
    (∀ m, env.resp = .error m → (get_default_branch url env).1 = pstr "main") ∧
    (∀ st body, env.resp = .ok (st, body) → st ≠ 200 →
      (get_default_branch url env).1 = pstr "main") ∧
    (∀ st m, env.resp = .ok (st, .error m) →
      (get_default_branch url env).1 = pstr "main") := by
  refine ⟨fun h => by unfold get_default_branch; rw [h], ?_, ?_, ?_⟩
  · intro m hm
    unfold get_default_branch
    cases hs : reSearchGh url with
    | none => rfl
    | some p => rw [hm]
  · intro st body hb hst
    unfold get_default_branch
    cases hs : reSearchGh url with
    | none => rfl
    | some p =>
      rw [hb]
      simp only [if_neg hst]
  · intro st m hb
    unfold get_default_branch
    cases hs : reSearchGh url with
    | none => rfl
    | some p =>
      rw [hb]
      by_cases h200 : st = 200
      · simp only [if_pos h200]
      · simp only [if_neg h200]

/-- C8 witness: a non-matching URL resolves to `main` without a request, and
a JSON-parse exception on a 200 response also resolves to `main`. -/
theorem claim_C8_witness :
    get_default_branch (pstr "x") ⟨.error (pstr "net down")⟩ = (pstr "main", false) ∧
    (get_default_branch (pstr "github.com/a/b")
        ⟨.ok (200, .error (pstr "bad json"))⟩).1 = pstr "main" :=
  ⟨(claim_C8 (pstr "x") ⟨.error (pstr "net down")⟩).1 (by decide),
   (claim_C8 (pstr "github.com/a/b") ⟨.ok (200, .error (pstr "bad json"))⟩).2.2.2 200
     (pstr "bad json") rfl⟩

theorem ghSplitF_ne_nil : ∀ (fuel : Nat) (l : List Char), ghSplitF fuel l ≠ [] := by
  intro fuel
  induction fuel with
  | zero => intro l; cases l <;> simp [ghSplitF]
  | succ n ih =>
    intro l
    cases l with
    | nil => simp [ghSplitF]
    | cons c rest =>
      rw [ghSplitF]
      split
      · simp
      · split <;> simp

theorem ghSplitF_spec : ∀ (fuel : Nat) (l : List Char), l.length ≤ fuel →
    (afterGhLastF fuel l = none ∧ ghSplitF fuel l = [l]) ∨
    (∃ s, afterGhLastF fuel l = some s ∧ (ghSplitF fuel l).getLast? = some s ∧
      2 ≤ (ghSplitF fuel l).length) := by
  intro fuel
  induction fuel with
  | zero =>
    intro l hl
    have : l = [] := List.length_eq_zero.mp (Nat.le_zero.mp hl)
    subst this
    exact Or.inl ⟨rfl, rfl⟩
  | succ n ih =>
    intro l hl
    cases l with
    | nil => exact Or.inl ⟨rfl, rfl⟩
    | cons c rest =>
      rw [ghSplitF, afterGhLastF]
      by_cases hp : ghL.isPrefixOf (c :: rest) = true
      · rw [if_pos hp, if_pos hp]
        right
        have hr : ((c :: rest).drop 11).length ≤ n := by
          simp only [List.length_drop, List.length_cons] at *
          omega
        rcases ih _ hr with ⟨ha, hg⟩ | ⟨s, ha, hg, hlen⟩
        · refine ⟨(c :: rest).drop 11, by simp only [ha, Option.getD_none], ?_, ?_⟩
          · rw [hg]; rfl
          · rw [hg]; simp
        · refine ⟨s, by simp only [ha, Option.getD_some], ?_, ?_⟩
          · rcases hgs : ghSplitF n ((c :: rest).drop 11) with _ | ⟨h0, t0⟩
            · exact absurd hgs (ghSplitF_ne_nil _ _)
            · rw [hgs] at hg
              rw [List.getLast?_cons_cons]
              exact hg
          · rcases hgs : ghSplitF n ((c :: rest).drop 11) with _ | ⟨h0, t0⟩
            · exact absurd hgs (ghSplitF_ne_nil _ _)
            · simp [hgs]
      · rw [if_neg hp, if_neg hp]
        have hr : rest.length ≤ n := by
          simp only [List.length_cons] at hl
          omega
        rcases ih rest hr with ⟨ha, hg⟩ | ⟨s, ha, hg, hlen⟩
        · left
          rw [ha, hg]
          exact ⟨rfl, rfl⟩
        · right
          refine ⟨s, ha, ?_, ?_⟩
          · rcases hgs : ghSplitF n rest with _ | ⟨h0, t0⟩
            · exact absurd hgs (ghSplitF_ne_nil _ _)
            · rw [hgs] at hg hlen
              cases t0 with
              | nil => simp at hlen
              | cons x xs =>
                rw [List.getLast?_cons_cons] at hg
                simpa [List.getLast?_cons_cons] using hg
          · rcases hgs : ghSplitF n rest with _ | ⟨h0, t0⟩
            · exact absurd hgs (ghSplitF_ne_nil _ _)
            · rw [hgs] at hlen
              cases t0 with
              | nil => simp at hlen
              | cons x xs => simp

theorem getLastD_of_getLast? (xs : List (List Char)) (s : List Char)
    (h : xs.getLast? = some s) : xs.getLastD [] = s := by
  induction xs with
  | nil => simp at h
  | cons a l ih =>
    cases l with
    | nil =>
      simp at h
      simp [h]
    | cons b t =>
      rw [List.getLast?_cons_cons] at h
      rw [List.getLastD_cons]
      have := ih h
      rw [List.getLastD_eq_getLast?, h] at this ⊢
      exact this

theorem ghSplit_lastD (l : List Char) :
    (ghSplit l).getLastD [] = (afterGhLast l).getD l := by
  unfold ghSplit afterGhLast
  rcases ghSplitF_spec l.length l le_rfl with ⟨ha, hg⟩ | ⟨s, ha, hg, _⟩
  · rw [ha, hg]; rfl
  · rw [ha, getLastD_of_getLast? _ _ hg]; rfl

/-- C9: the branch-archive URL equals `https://github.com/` followed by the
verbatim suffix of the input URL after its last `github.com/` occurrence,
followed by `/archive/refs/heads/<branch>.zip` — it is re-derived from the
raw input string, casing, extra segments and trailing slashes preserved. -/
theorem claim_C9 (repo_url branch s : List Char) (h : afterGhLast repo_url = some s) :
    zip_url repo_url branch =
      pstr "https://github.com/" ++ s ++ pstr "/archive/refs/heads/" ++ branch ++ pstr ".zip" := by
  unfold zip_url
  rw [ghSplit_lastD, h]
  rfl

/-- C9 witness: casing and the trailing slash of the raw input survive into
the archive URL. -/
theorem claim_C9_witness :
    zip_url (pstr "https://github.com/Me/Repo/") (pstr "dev") =
      pstr "https://github.com/" ++ pstr "Me/Repo/" ++ pstr "/archive/refs/heads/" ++
        pstr "dev" ++ pstr ".zip" :=
  claim_C9 _ _ _ (by decide)

/-! ## Loop lemmas -/

theorem relLoop_bounds (total : Nat) (an : List Char) :
    ∀ (evs : List ChunkEv) (d : Nat) (file : List Nat),
      ∀ p ∈ (relLoop total an evs d file).2.2, 0 ≤ p.1 ∧ p.1 ≤ 1 := by
  intro evs
  induction evs with
  | nil => intro d file p hp; simp [relLoop] at hp
  | cons e rest ih =>
    intro d file p hp
    cases e with
    | err m => simp [relLoop] at hp
    | chunk b =>
      rw [relLoop] at hp
      by_cases hb : b.isEmpty
      · rw [if_pos hb] at hp
        exact ih _ _ p hp
      · rw [if_neg hb] at hp
        simp only [List.mem_append] at hp
        rcases hp with hp | hp
        · by_cases ht : 0 < total
          · rw [if_pos ht] at hp
            simp only [List.mem_singleton] at hp
            subst hp
            refine ⟨le_min (by norm_num) ?_, min_le_left _ _⟩
            exact div_nonneg (Nat.cast_nonneg _) (Nat.cast_nonneg _)
          · rw [if_neg ht] at hp
            simp at hp
        · exact ih _ _ p hp

theorem ghLoop_bounds (total : Nat) (rn : List Char) :
    ∀ (evs : List ChunkEv) (d : Nat),
      ∀ p ∈ (ghLoop total rn evs d).2, 0 ≤ p.1 ∧ p.1 ≤ 8/10 := by
  intro evs
  induction evs with
  | nil => intro d p hp; simp [ghLoop] at hp
  | cons e rest ih =>
    intro d p hp
    cases e with
    | err m => simp [ghLoop] at hp
    | chunk b =>
      rw [ghLoop] at hp
      by_cases hb : b.isEmpty
      · rw [if_pos hb] at hp
        exact ih _ p hp
      · rw [if_neg hb] at hp
        simp only [List.mem_append] at hp
        rcases hp with hp | hp
        · by_cases ht : 0 < total
          · rw [if_pos ht] at hp
            simp only [List.mem_singleton] at hp
            subst hp
            refine ⟨le_min (by norm_num) ?_, min_le_left _ _⟩
            exact mul_nonneg (div_nonneg (Nat.cast_nonneg _) (Nat.cast_nonneg _)) (by norm_num)
          · rw [if_neg ht] at hp
            simp at hp
        · exact ih _ p hp

theorem relLoop_ok_iff (total : Nat) (an : List Char) :
    ∀ (evs : List ChunkEv) (d : Nat) (file : List Nat),
      ((relLoop total an evs d file).1 = Except.ok () ↔ evs.all chunkEvOk = true) := by
  intro evs
  induction evs with
  | nil => intro d file; simp [relLoop]
  | cons e rest ih =>
    intro d file
    cases e with
    | err m => simp [relLoop, chunkEvOk]
    | chunk b =>
      rw [relLoop]
      by_cases hb : b.isEmpty
      · rw [if_pos hb]
        simp only [List.all_cons, chunkEvOk, Bool.true_and]
        exact ih _ _
      · rw [if_neg hb]
        simp only [List.all_cons, chunkEvOk, Bool.true_and]
        exact ih _ _

theorem ghLoop_ok_iff (total : Nat) (rn : List Char) :
    ∀ (evs : List ChunkEv) (d : Nat),
      ((ghLoop total rn evs d).1 = Except.ok () ↔ evs.all chunkEvOk = true) := by
  intro evs
  induction evs with
  | nil => intro d; simp [ghLoop]
  | cons e rest ih =>
    intro d
    cases e with
    | err m => simp [ghLoop, chunkEvOk]
    | chunk b =>
      rw [ghLoop]
      by_cases hb : b.isEmpty
      · rw [if_pos hb]
        simp only [List.all_cons, chunkEvOk, Bool.true_and]
        exact ih _
      · rw [if_neg hb]
        simp only [List.all_cons, chunkEvOk, Bool.true_and]
        exact ih _

theorem relLoop_partial (total : Nat) (an : List Char) :
    ∀ (evs : List ChunkEv) (e : Exn) (rest : List ChunkEv) (d : Nat) (file : List Nat),
      (∀ m, ChunkEv.err m ∉ evs) →
      (relLoop total an (evs ++ ChunkEv.err e :: rest) d file).1 = Except.error e ∧
      (relLoop total an (evs ++ ChunkEv.err e :: rest) d file).2.1 = file ++ joinChunks evs := by
  intro evs
  induction evs with
  | nil =>
    intro e rest d file _
    simp [relLoop, joinChunks]
  | cons ev evs' ih =>
    intro e rest d file hne
    cases ev with
    | err m => exact absurd (List.mem_cons_self _ _) (hne m)
    | chunk b =>
      have hne' : ∀ m, ChunkEv.err m ∉ evs' := fun m hm => hne m (List.mem_cons_of_mem _ hm)
      rw [List.cons_append, relLoop]
      by_cases hb : b.isEmpty
      · rw [if_pos hb]
        have hbe : b = [] := by
          cases b with
          | nil => rfl
          | cons x xs => simp [List.isEmpty] at hb
        obtain ⟨ha, hf⟩ := ih e rest d file hne'
        exact ⟨ha, by rw [hf]; simp [joinChunks, chunkBytes, hbe]⟩
      · rw [if_neg hb]
        obtain ⟨ha, hf⟩ := ih e rest (d + b.length) (file ++ b) hne'
        refine ⟨ha, ?_⟩
        show (relLoop total an (evs' ++ ChunkEv.err e :: rest) (d + b.length) (file ++ b)).2.1 = _
        rw [hf]
        simp [joinChunks, chunkBytes, List.append_assoc]

/-! ## Case analyses of the two fetchers -/

theorem boundsB_append {b : ℚ} {l1 l2 : List Prog}
    (h1 : ∀ p ∈ l1, 0 ≤ p.1 ∧ p.1 ≤ b) (h2 : ∀ p ∈ l2, 0 ≤ p.1 ∧ p.1 ≤ b) :
    ∀ p ∈ l1 ++ l2, 0 ≤ p.1 ∧ p.1 ≤ b := by
  intro p hp
  rcases List.mem_append.mp hp with h | h
  exacts [h1 p h, h2 p h]

theorem boundsB_single {b q : ℚ} {m : List Char} (h0 : 0 ≤ q) (h1 : q ≤ b) :
    ∀ p ∈ ([(q, m)] : List Prog), 0 ≤ p.1 ∧ p.1 ≤ b := by
  intro p hp
  simp only [List.mem_singleton] at hp
  subst hp
  exact ⟨h0, h1⟩

theorem rel_cases (o r s : List Char) (env : RelEnv) :
    (∃ e pre,
      (download_latest_release o r s env).result = none ∧
      (download_latest_release o r s env).trace = pre ++ [(1, relFail e)] ∧
      (∀ p ∈ pre, 0 ≤ p.1 ∧ p.1 ≤ 1)) ∨
    (∃ a pre,
      (download_latest_release o r s env).result = some (pathJoin s a) ∧
      (download_latest_release o r s env).trace =
        pre ++ [(1, r ++ pstr " release downloaded successfully.")] ∧
      (∀ p ∈ pre, 0 ≤ p.1 ∧ p.1 ≤ 1)) := by
  obtain ⟨apiGet, dlGet, openRes⟩ := env
  cases apiGet with
  | error e =>
    exact Or.inl ⟨e, _, rfl, rfl, boundsB_single (by norm_num) (by norm_num)⟩
  | ok api =>
    obtain ⟨ast, ajson⟩ := api
    cases ast with
    | error e =>
      exact Or.inl ⟨e, _, rfl, rfl, boundsB_single (by norm_num) (by norm_num)⟩
    | ok u0 =>
      cases ajson with
      | error e =>
        exact Or.inl ⟨e, _, rfl, rfl, boundsB_single (by norm_num) (by norm_num)⟩
      | ok release =>
        obtain ⟨assets⟩ := release
        cases assets with
        | nil =>
          exact Or.inl ⟨_, _, rfl, rfl, boundsB_single (by norm_num) (by norm_num)⟩
        | cons a arest =>
          have ht1 : ∀ p ∈ ([(5/100, pstr "Checking latest " ++ r ++ pstr " release..."),
              ((1:ℚ)/10, dlMsg a.name)] : List Prog), 0 ≤ p.1 ∧ p.1 ≤ 1 := by
            intro p hp
            rcases List.mem_cons.mp hp with h | hp
            · subst h; constructor <;> norm_num
            · rcases List.mem_cons.mp hp with h | hp
              · subst h; constructor <;> norm_num
              · simp at hp
          cases dlGet with
          | error e =>
            exact Or.inl ⟨e, _, rfl, rfl, ht1⟩
          | ok resp =>
            obtain ⟨st, cl, evs⟩ := resp
            cases st with
            | error e =>
              exact Or.inl ⟨e, _, rfl, rfl, ht1⟩
            | ok u1 =>
              cases cl with
              | error e =>
                exact Or.inl ⟨e, _, rfl, rfl, ht1⟩
              | ok total =>
                cases openRes with
                | error e =>
                  exact Or.inl ⟨e, _, rfl, rfl, ht1⟩
                | ok u2 =>
                  have hb := relLoop_bounds total a.name evs 0 []
                  rcases hout : relLoop total a.name evs 0 [] with ⟨res, fl, tr⟩
                  rw [hout] at hb
                  cases res with
                  | error e =>
                    refine Or.inl ⟨e,
                      [(5/100, pstr "Checking latest " ++ r ++ pstr " release..."),
                        ((1:ℚ)/10, dlMsg a.name)] ++ tr, ?_, ?_, boundsB_append ht1 hb⟩
                    · unfold download_latest_release
                      simp only [hout]
                    · unfold download_latest_release
                      simp only [hout]
                      rfl
                  | ok u3 =>
                    refine Or.inr ⟨a.name,
                      [(5/100, pstr "Checking latest " ++ r ++ pstr " release..."),
                        ((1:ℚ)/10, dlMsg a.name)] ++ tr, ?_, ?_, boundsB_append ht1 hb⟩
                    · unfold download_latest_release
                      simp only [hout]
                    · unfold download_latest_release
                      simp only [hout]
                      rfl

theorem gh_cases (u s : List Char) (env : RepoEnv) :
    (∃ e pre,
      downloadPhaseOk env = false ∧
      (download_github_repo u s env).result = ⟨pstr "error", none, none, some e⟩ ∧
      (download_github_repo u s env).trace = pre ++ [(1, ghFail u e)] ∧
      (∀ p ∈ pre, 0 ≤ p.1 ∧ p.1 ≤ 8/10)) ∨
    (∃ e pre,
      downloadPhaseOk env = true ∧ env.extract = Except.error e ∧
      (download_github_repo u s env).result = ⟨pstr "error", none, none, some e⟩ ∧
      (download_github_repo u s env).trace =
        (pre ++ [(85/100, extractMsg (get_repo_name u))]) ++ [(1, ghFail u e)] ∧
      (∀ p ∈ pre, 0 ≤ p.1 ∧ p.1 ≤ 8/10)) ∨
    (∃ entries pre,
      downloadPhaseOk env = true ∧ env.extract = Except.ok entries ∧
      (download_github_repo u s env).result =
        ⟨if hasInstaller (extractedOf (get_repo_name u) s entries).2 then pstr "ready"
          else pstr "no_installer",
         some (extractedOf (get_repo_name u) s entries).1, some (get_repo_name u), none⟩ ∧
      (download_github_repo u s env).trace =
        (pre ++ [(85/100, extractMsg (get_repo_name u))]) ++
          [(1, get_repo_name u ++ pstr " downloaded successfully.")] ∧
      (∀ p ∈ pre, 0 ≤ p.1 ∧ p.1 ≤ 8/10)) := by
  obtain ⟨be, zipGet, ext⟩ := env
  cases zipGet with
  | error e =>
    exact Or.inl ⟨e, _, rfl, rfl, rfl, boundsB_single (by norm_num) (by norm_num)⟩
  | ok resp =>
    obtain ⟨st, cl, evs⟩ := resp
    cases st with
    | error e =>
      exact Or.inl ⟨e, _, rfl, rfl, rfl, boundsB_single (by norm_num) (by norm_num)⟩
    | ok u0 =>
      cases cl with
      | error e =>
        exact Or.inl ⟨e, _, rfl, rfl, rfl, boundsB_single (by norm_num) (by norm_num)⟩
      | ok total =>
        have hb := ghLoop_bounds total (get_repo_name u) evs 0
        have hok := ghLoop_ok_iff total (get_repo_name u) evs 0
        rcases hout : ghLoop total (get_repo_name u) evs 0 with ⟨res, tr⟩
        rw [hout] at hb hok
        have ht0 : ∀ p ∈ ([(5/100,
            pstr "Connecting to " ++ get_repo_name u ++ pstr " (" ++
              (get_default_branch u be).1 ++ pstr ")...")] : List Prog),
            0 ≤ p.1 ∧ p.1 ≤ 8/10 := boundsB_single (by norm_num) (by norm_num)
        cases res with
        | error e =>
          have hall : evs.all chunkEvOk = false := by
            rcases hv : evs.all chunkEvOk with _ | _
            · rfl
            · exact absurd (hok.mpr hv) (by simp)
          refine Or.inl ⟨e,
            [(5/100, pstr "Connecting to " ++ get_repo_name u ++ pstr " (" ++
              (get_default_branch u be).1 ++ pstr ")...")] ++ tr, ?_, ?_, ?_,
            boundsB_append ht0 hb⟩
          · simp [downloadPhaseOk, hall]
          · unfold download_github_repo
            simp only [hout]
          · unfold download_github_repo
            simp only [hout]
        | ok u1 =>
          have hall : evs.all chunkEvOk = true := hok.mp rfl
          have hphase : downloadPhaseOk ⟨be, Except.ok ⟨Except.ok u0, Except.ok total, evs⟩, ext⟩
              = true := by simp [downloadPhaseOk, hall]
          cases ext with
          | error e =>
            refine Or.inr (Or.inl ⟨e,
              [(5/100, pstr "Connecting to " ++ get_repo_name u ++ pstr " (" ++
                (get_default_branch u be).1 ++ pstr ")...")] ++ tr, hphase, rfl, ?_, ?_,
              boundsB_append ht0 hb⟩)
            · unfold download_github_repo
              simp only [hout]
            · unfold download_github_repo
              simp only [hout]
          | ok entries =>
            refine Or.inr (Or.inr ⟨entries,
              [(5/100, pstr "Connecting to " ++ get_repo_name u ++ pstr " (" ++
                (get_default_branch u be).1 ++ pstr ")...")] ++ tr, hphase, rfl, ?_, ?_,
              boundsB_append ht0 hb⟩)
            · unfold download_github_repo
              simp only [hout]
            · unfold download_github_repo
              simp only [hout]

/-! ## Claims C1, C3, C6, C7 -/

theorem boundsB_mono {b b' : ℚ} {l : List Prog} (hbb : b ≤ b')
    (h : ∀ p ∈ l, 0 ≤ p.1 ∧ p.1 ≤ b) : ∀ p ∈ l, 0 ≤ p.1 ∧ p.1 ≤ b' :=
  fun p hp => ⟨(h p hp).1, le_trans (h p hp).2 hbb⟩

theorem rel_trace_facts (o r s : List Char) (env : RelEnv) :
    (∀ p ∈ (download_latest_release o r s env).trace, 0 ≤ p.1 ∧ p.1 ≤ 1) ∧
    (∃ m, (download_latest_release o r s env).trace.getLast? = some (1, m)) := by
  rcases rel_cases o r s env with ⟨e, pre, _, htr, hb⟩ | ⟨a, pre, _, htr, hb⟩ <;>
    rw [htr] <;>
    exact ⟨boundsB_append hb (boundsB_single (by norm_num) (by norm_num)),
      ⟨_, List.getLast?_concat _⟩⟩

theorem gh_trace_facts (u s : List Char) (env : RepoEnv) :
    (∀ p ∈ (download_github_repo u s env).trace, 0 ≤ p.1 ∧ p.1 ≤ 1) ∧
    (∃ m, (download_github_repo u s env).trace.getLast? = some (1, m)) := by
  rcases gh_cases u s env with ⟨e, pre, _, _, htr, hb⟩ | ⟨e, pre, _, _, _, htr, hb⟩ |
    ⟨en, pre, _, _, _, htr, hb⟩ <;> rw [htr]
  · exact ⟨boundsB_append (boundsB_mono (by norm_num) hb)
      (boundsB_single (by norm_num) (by norm_num)), ⟨_, List.getLast?_concat _⟩⟩
  · exact ⟨boundsB_append
      (boundsB_append (boundsB_mono (by norm_num) hb)
        (boundsB_single (by norm_num) (by norm_num)))
      (boundsB_single (by norm_num) (by norm_num)), ⟨_, List.getLast?_concat _⟩⟩
  · exact ⟨boundsB_append
      (boundsB_append (boundsB_mono (by norm_num) hb)
        (boundsB_single (by norm_num) (by norm_num)))
      (boundsB_single (by norm_num) (by norm_num)), ⟨_, List.getLast?_concat _⟩⟩

/-- C1: failures are captured, never raised.  An exception arises during
execution of the release fetcher (at the metadata GET, its status check or
body parse, the raised no-assets condition, the asset GET, its status check
or content-length parse, the file open, or any body event) exactly when the
fetcher returns the absence signal, and every such return follows a final
`(1.0, "Failed to download release: <e>")` report; an exception arises during
execution of the branch fetcher (during the download phase or at extraction)
exactly when it returns a `status:"error"` record, and every such record
follows a final `(1.0, "Failed to download <url>: <e>")` report.  Both
embeddings are total functions of their environment, so no exception crosses
the boundary. -/
theorem claim_C1 (o r s u s2 : List Char) (envR : RelEnv) (envG : RepoEnv) :
    (relRaises envR = true ↔ (download_latest_release o r s envR).result = none) ∧
    ((download_latest_release o r s envR).result = none →
      ∃ e, (download_latest_release o r s envR).trace.getLast? = some (1, relFail e)) ∧
    (ghRaises envG = true ↔ (download_github_repo u s2 envG).result.status = pstr "error") ∧
    ((download_github_repo u s2 envG).result.status = pstr "error" →
      ∃ e, (download_github_repo u s2 envG).trace.getLast? = some (1, ghFail u e)) := by
  refine ⟨?_, ?_, ?_, ?_⟩
  · obtain ⟨apiGet, dlGet, openRes⟩ := envR
    cases apiGet with
    | error e => exact ⟨fun _ => rfl, fun _ => rfl⟩
    | ok api =>
      obtain ⟨ast, ajson⟩ := api
      cases ast with
      | error e => exact ⟨fun _ => rfl, fun _ => rfl⟩
      | ok u0 =>
        cases ajson with
        | error e => exact ⟨fun _ => rfl, fun _ => rfl⟩
        | ok release =>
          obtain ⟨assets⟩ := release
          cases assets with
          | nil => exact ⟨fun _ => rfl, fun _ => rfl⟩
          | cons a arest =>
            cases dlGet with
            | error e => exact ⟨fun _ => rfl, fun _ => rfl⟩
            | ok resp =>
              obtain ⟨st, cl, evs⟩ := resp
              cases st with
              | error e => exact ⟨fun _ => rfl, fun _ => rfl⟩
              | ok u1 =>
                cases cl with
                | error e => exact ⟨fun _ => rfl, fun _ => rfl⟩
                | ok total =>
                  cases openRes with
                  | error e => exact ⟨fun _ => rfl, fun _ => rfl⟩
                  | ok u2 =>
                    have hok := relLoop_ok_iff total a.name evs 0 []
                    rcases hout : relLoop total a.name evs 0 [] with ⟨res, fl, tr⟩
                    rw [hout] at hok
                    cases res with
                    | error e =>
                      have hall : evs.all chunkEvOk = false := by
                        rcases hv : evs.all chunkEvOk with _ | _
                        · rfl
                        · exact absurd (hok.mpr hv) (by simp)
                      constructor
                      · intro _
                        unfold download_latest_release
                        simp only [hout]
                      · intro _
                        simp [relRaises, hall]
                    | ok u3 =>
                      have hall : evs.all chunkEvOk = true := hok.mp rfl
                      constructor
                      · intro h
                        rw [show relRaises ⟨.ok ⟨.ok u0, .ok ⟨a :: arest⟩⟩,
                            .ok ⟨.ok u1, .ok total, evs⟩, .ok u2⟩ = false from by
                          simp [relRaises, hall]] at h
                        cases h
                      · intro h
                        unfold download_latest_release at h
                        simp only [hout] at h
                        exact absurd h (by simp)
  · rcases rel_cases o r s envR with ⟨e, pre, hres, htr, _⟩ | ⟨a, pre, hres, htr, _⟩
    · exact fun _ => ⟨e, by rw [htr]; exact List.getLast?_concat _⟩
    · intro h
      rw [hres] at h
      simp at h
  · rcases gh_cases u s2 envG with ⟨e, pre, hph, hres, _, _⟩ | ⟨e, pre, hph, hex, hres, _, _⟩ |
      ⟨en, pre, hph, hex, hres, _, _⟩
    · rw [hres]
      exact ⟨fun _ => rfl, fun _ => by simp [ghRaises, hph]⟩
    · rw [hres]
      exact ⟨fun _ => rfl, fun _ => by simp [ghRaises, hph, hex]⟩
    · rw [hres]
      constructor
      · intro h
        exfalso
        simp [ghRaises, hph, hex] at h
      · intro h
        exfalso
        dsimp only at h
        split at h <;> exact absurd h (by decide)
  · rcases gh_cases u s2 envG with ⟨e, pre, _, hres, htr, _⟩ | ⟨e, pre, _, _, hres, htr, _⟩ |
      ⟨en, pre, _, _, hres, htr, _⟩
    · exact fun _ => ⟨e, by rw [htr]; exact List.getLast?_concat _⟩
    · exact fun _ => ⟨e, by rw [htr]; exact List.getLast?_concat _⟩
    · intro h
      rw [hres] at h
      simp only at h
      split at h <;> exact absurd h (by decide)

/-- C1 witness: exceptions at sites deep in each fetcher are captured — a
file-open failure in the release fetcher and an extraction failure in the
branch fetcher each yield the sentinel return. -/
theorem claim_C1_witness :
    (download_latest_release (pstr "o") (pstr "r") (pstr "s")
        ⟨.ok ⟨.ok (), .ok ⟨[⟨pstr "url", pstr "a.exe"⟩]⟩⟩,
         .ok ⟨.ok (), .ok 4, [ChunkEv.chunk [9]]⟩, .error (pstr "disk full")⟩).result = none ∧
    (download_github_repo (pstr "u") (pstr "d")
        ⟨⟨.error (pstr "n")⟩, .ok ⟨.ok (), .ok 0, []⟩,
         .error (pstr "bad zip")⟩).result.status = pstr "error" :=
  ⟨(claim_C1 (pstr "o") (pstr "r") (pstr "s") (pstr "u") (pstr "d")
      ⟨.ok ⟨.ok (), .ok ⟨[⟨pstr "url", pstr "a.exe"⟩]⟩⟩,
       .ok ⟨.ok (), .ok 4, [ChunkEv.chunk [9]]⟩, .error (pstr "disk full")⟩
      ⟨⟨.error (pstr "n")⟩, .ok ⟨.ok (), .ok 0, []⟩, .error (pstr "bad zip")⟩).1.mp
     (by decide),
   (claim_C1 (pstr "o") (pstr "r") (pstr "s") (pstr "u") (pstr "d")
      ⟨.ok ⟨.ok (), .ok ⟨[⟨pstr "url", pstr "a.exe"⟩]⟩⟩,
       .ok ⟨.ok (), .ok 4, [ChunkEv.chunk [9]]⟩, .error (pstr "disk full")⟩
      ⟨⟨.error (pstr "n")⟩, .ok ⟨.ok (), .ok 0, []⟩, .error (pstr "bad zip")⟩).2.2.1.mp
     (by decide)⟩

/-- C3: every returned record's status is exactly one of `ready`,
`no_installer`, `error`; `ready`/`no_installer` records carry `path` and
`repo_name`, and `error` records carry an `error` message. -/
theorem claim_C3 (u s : List Char) (env : RepoEnv) :
    ((download_github_repo u s env).result.status = pstr "ready" ∨
     (download_github_repo u s env).result.status = pstr "no_installer" ∨
     (download_github_repo u s env).result.status = pstr "error") ∧
    ((download_github_repo u s env).result.status = pstr "ready" ∨
        (download_github_repo u s env).result.status = pstr "no_installer" →
      (download_github_repo u s env).result.path ≠ none ∧
      (download_github_repo u s env).result.repo_name ≠ none) ∧
    ((download_github_repo u s env).result.status = pstr "error" →
      (download_github_repo u s env).result.error ≠ none) := by
  rcases gh_cases u s env with ⟨e, pre, _, hres, _, _⟩ | ⟨e, pre, _, _, hres, _, _⟩ |
    ⟨en, pre, _, _, hres, _, _⟩ <;> rw [hres]
  · refine ⟨Or.inr (Or.inr rfl), ?_, fun _ => by simp⟩
    rintro (h | h) <;> (dsimp only at h; exact absurd h (by decide))
  · refine ⟨Or.inr (Or.inr rfl), ?_, fun _ => by simp⟩
    rintro (h | h) <;> (dsimp only at h; exact absurd h (by decide))
  · refine ⟨?_, fun _ => ⟨by simp, by simp⟩, ?_⟩
    · simp only
      split
      · exact Or.inl rfl
      · exact Or.inr (Or.inl rfl)
    · intro h
      simp only at h
      split at h <;> exact absurd h (by decide)

/-- C3 witness: an error record carries a message. -/
theorem claim_C3_witness :
    (download_github_repo (pstr "u") (pstr "d")
        ⟨⟨.error (pstr "n")⟩, .error (pstr "boom"), .ok []⟩).result.error ≠ none :=
  (claim_C3 (pstr "u") (pstr "d")
      ⟨⟨.error (pstr "n")⟩, .error (pstr "boom"), .ok []⟩).2.2 (by decide)

/-- C6: in both fetchers every progress fraction lies in `[0, 1]`, and every
run — including those with a declared content length of 0 or an absent header,
where no per-chunk report is made — ends with a report of fraction exactly
1.0. -/
theorem claim_C6 (o r s u s2 : List Char) (envR : RelEnv) (envG : RepoEnv) :
    (∀ p ∈ (download_latest_release o r s envR).trace, 0 ≤ p.1 ∧ p.1 ≤ 1) ∧
    (∃ m, (download_latest_release o r s envR).trace.getLast? = some (1, m)) ∧
    (∀ p ∈ (download_github_repo u s2 envG).trace, 0 ≤ p.1 ∧ p.1 ≤ 1) ∧
    (∃ m, (download_github_repo u s2 envG).trace.getLast? = some (1, m)) :=
  ⟨(rel_trace_facts o r s envR).1, (rel_trace_facts o r s envR).2,
   (gh_trace_facts u s2 envG).1, (gh_trace_facts u s2 envG).2⟩

/-- C6 witness: at a run whose download response declares content length 0,
the first emitted report is in the trace and lies within the unit interval. -/
theorem claim_C6_witness :
    ((5/100, pstr "Checking latest " ++ pstr "r" ++ pstr " release...") ∈
      (download_latest_release (pstr "o") (pstr "r") (pstr "s")
        ⟨.error (pstr "x"), .ok ⟨.ok (), .ok 0, []⟩, .ok ()⟩).trace) ∧
    (0 ≤ ((5:ℚ)/100) ∧ ((5:ℚ)/100) ≤ 1) :=
  ⟨List.mem_cons_self _ _,
   (claim_C6 (pstr "o") (pstr "r") (pstr "s") (pstr "u") (pstr "d")
      ⟨.error (pstr "x"), .ok ⟨.ok (), .ok 0, []⟩, .ok ()⟩
      ⟨⟨.error (pstr "y")⟩, .error (pstr "z"), .ok []⟩).1
    (5/100, pstr "Checking latest " ++ pstr "r" ++ pstr " release...")
    (List.mem_cons_self _ _)⟩

/-! ## Claim C7 -/

/-- C7 counterexample: the claim that every run emits a 0.85 report before the
terminal 1.0 fails — with an exception at the archive GET, the trace consists
of the 0.05 connect report and the terminal 1.0 failure report only, and 0.85
occurs nowhere in it. -/
theorem claim_C7_counterexample :
    (download_github_repo (pstr "u") (pstr "d")
        ⟨⟨.error (pstr "n")⟩, .error (pstr "boom"), .ok []⟩).trace.map Prod.fst =
      [5/100, 1] ∧
    ¬ ((85:ℚ)/100 ∈ [(5:ℚ)/100, 1]) := by
  constructor
  · norm_num [download_github_repo, get_repo_name, get_default_branch]
  · norm_num

/-- C7 (amended): every pre-terminal report of `download_github_repo` has
fraction at most 0.8 or exactly 0.85; in every run whose download phase
completes without an exception, the 0.85 extracting report is emitted before
the terminal report, which has fraction exactly 1.0; in a run aborted before
extraction every pre-terminal report is at most 0.8 — in particular no 0.85
report precedes the terminal 1.0 failure report. -/
theorem claim_C7_amended (u s : List Char) (env : RepoEnv) :
    (∃ m, (download_github_repo u s env).trace.getLast? = some (1, m)) ∧
    (∀ p ∈ (download_github_repo u s env).trace.dropLast,
      p.1 ≤ 8/10 ∨ p.1 = 85/100) ∧
    (downloadPhaseOk env = true →
      (85/100, extractMsg (get_repo_name u)) ∈
        (download_github_repo u s env).trace.dropLast) ∧
    (downloadPhaseOk env = false →
      ∀ p ∈ (download_github_repo u s env).trace.dropLast, p.1 ≤ 8/10) := by
  rcases gh_cases u s env with ⟨e, pre, hph, _, htr, hb⟩ | ⟨e, pre, hph, _, _, htr, hb⟩ |
    ⟨en, pre, hph, _, _, htr, hb⟩ <;>
    rw [htr, List.dropLast_concat]
  · refine ⟨⟨_, List.getLast?_concat _⟩, ?_, ?_, ?_⟩
    · exact fun p hp => Or.inl (hb p hp).2
    · intro h
      rw [hph] at h
      cases h
    · exact fun _ p hp => (hb p hp).2
  · refine ⟨⟨_, List.getLast?_concat _⟩, ?_, ?_, ?_⟩
    · intro p hp
      rcases List.mem_append.mp hp with h | h
      · exact Or.inl (hb p h).2
      · simp only [List.mem_singleton] at h
        subst h
        exact Or.inr rfl
    · exact fun _ => List.mem_append.mpr (Or.inr (List.mem_singleton.mpr rfl))
    · intro h
      rw [hph] at h
      cases h
  · refine ⟨⟨_, List.getLast?_concat _⟩, ?_, ?_, ?_⟩
    · intro p hp
      rcases List.mem_append.mp hp with h | h
      · exact Or.inl (hb p h).2
      · simp only [List.mem_singleton] at h
        subst h
        exact Or.inr rfl
    · exact fun _ => List.mem_append.mpr (Or.inr (List.mem_singleton.mpr rfl))
    · intro h
      rw [hph] at h
      cases h

/-- C7 witness: in a run that reaches extraction, the 0.85 extracting report
occurs before the terminal report. -/
theorem claim_C7_witness :
    (85/100, extractMsg (get_repo_name (pstr "u"))) ∈
      (download_github_repo (pstr "u") (pstr "d")
        ⟨⟨.error (pstr "n")⟩, .ok ⟨.ok (), .ok 0, []⟩, .ok []⟩).trace.dropLast :=
  (claim_C7_amended (pstr "u") (pstr "d")
      ⟨⟨.error (pstr "n")⟩, .ok ⟨.ok (), .ok 0, []⟩, .ok []⟩).2.2.1 (by decide)

/-! ## Claims C4, C5 -/

theorem isPrefixOf_iff (p l : List Char) : p.isPrefixOf l = true ↔ ∃ t, l = p ++ t :=
  ⟨exists_append_of_isPrefixOf p l, fun ⟨t, ht⟩ => ht ▸ isPrefixOf_append_self p t⟩

theorem containsSub_iff : ∀ (pat l : List Char),
    containsSub pat l = true ↔ ∃ p q, l = p ++ pat ++ q := by
  intro pat l
  induction l with
  | nil =>
    simp only [containsSub, List.isEmpty_iff]
    constructor
    · rintro rfl
      exact ⟨[], [], rfl⟩
    · rintro ⟨p, q, hpq⟩
      rcases List.append_eq_nil.mp hpq.symm with ⟨h1, -⟩
      exact (List.append_eq_nil.mp h1).2
  | cons c rest ih =>
    simp only [containsSub, Bool.or_eq_true, isPrefixOf_iff, ih]
    constructor
    · rintro (⟨t, ht⟩ | ⟨p, q, hpq⟩)
      · exact ⟨[], t, by simpa using ht⟩
      · exact ⟨c :: p, q, by simp [hpq]⟩
    · rintro ⟨p, q, hpq⟩
      cases p with
      | nil =>
        left
        exact ⟨q, by simpa using hpq⟩
      | cons d p' =>
        right
        refine ⟨p', q, ?_⟩
        have := congrArg List.tail hpq
        simpa using this

theorem findExtracted_first :
    ∀ (rn : List Char) (pre : List FSTree) (n : List Char) (cs : List FSTree)
      (suf : List FSTree),
      (∀ m ds, FSTree.dir m ds ∈ pre → containsSub (lowerStr rn) (lowerStr m) = false) →
      containsSub (lowerStr rn) (lowerStr n) = true →
      findExtracted rn (pre ++ FSTree.dir n cs :: suf) = some (n, cs) := by
  intro rn pre
  induction pre with
  | nil =>
    intro n cs suf _ hn
    simp only [List.nil_append, findExtracted]
    rw [if_pos hn]
  | cons t pre' ih =>
    intro n cs suf hpre hn
    cases t with
    | file fn =>
      rw [List.cons_append, findExtracted]
      exact ih n cs suf (fun m ds hm => hpre m ds (List.mem_cons_of_mem _ hm)) hn
    | dir m ds =>
      rw [List.cons_append, findExtracted]
      rw [if_neg]
      · exact ih n cs suf (fun m' ds' hm => hpre m' ds' (List.mem_cons_of_mem _ hm)) hn
      · rw [hpre m ds (List.mem_cons_self _ _)]
        simp

theorem findExtracted_none :
    ∀ (rn : List Char) (entries : List FSTree),
      (∀ m ds, FSTree.dir m ds ∈ entries → containsSub (lowerStr rn) (lowerStr m) = false) →
      findExtracted rn entries = none := by
  intro rn entries
  induction entries with
  | nil => intro _; rfl
  | cons t rest ih =>
    intro h
    cases t with
    | file fn =>
      rw [findExtracted]
      exact ih fun m ds hm => h m ds (List.mem_cons_of_mem _ hm)
    | dir m ds =>
      rw [findExtracted, if_neg]
      · exact ih fun m' ds' hm => h m' ds' (List.mem_cons_of_mem _ hm)
      · rw [h m ds (List.mem_cons_self _ _)]
        simp

theorem hasInstaller_iff (ts : List FSTree) :
    hasInstaller ts = true ↔
      ∃ f ∈ forestFiles ts, lowerStr f = pstr "installerready.exe" := by
  simp [hasInstaller, List.any_eq_true]

theorem gh_success (u s : List Char) (env : RepoEnv) (entries : List FSTree)
    (hex : env.extract = Except.ok entries)
    (hst : (download_github_repo u s env).result.status ≠ pstr "error") :
    (download_github_repo u s env).result =
      ⟨if hasInstaller (extractedOf (get_repo_name u) s entries).2 then pstr "ready"
        else pstr "no_installer",
       some (extractedOf (get_repo_name u) s entries).1, some (get_repo_name u), none⟩ := by
  rcases gh_cases u s env with ⟨e, pre, _, hres, _, _⟩ | ⟨e, pre, _, _, hres, _, _⟩ |
    ⟨en, pre, _, hex2, hres, _, _⟩
  · rw [hres] at hst
    exact absurd rfl hst
  · rw [hres] at hst
    exact absurd rfl hst
  · rw [hex] at hex2
    injection hex2 with hen
    subst hen
    exact hres

/-- C4: after a successful extraction, the branch fetcher reports status
`ready` exactly when the recursive walk of the extracted folder's subtree
contains some file named `installerready.exe` case-insensitively, and
otherwise reports `no_installer`. -/
theorem claim_C4 (u s : List Char) (env : RepoEnv) (entries : List FSTree)
    (hex : env.extract = Except.ok entries)
    (hst : (download_github_repo u s env).result.status ≠ pstr "error") :
    ((download_github_repo u s env).result.status = pstr "ready" ↔
      ∃ f ∈ forestFiles (extractedOf (get_repo_name u) s entries).2,
        lowerStr f = pstr "installerready.exe") ∧
    ((download_github_repo u s env).result.status = pstr "ready" ∨
     (download_github_repo u s env).result.status = pstr "no_installer") := by
  rw [gh_success u s env entries hex hst]
  dsimp only
  constructor
  · constructor
    · intro hr
      by_cases hi : hasInstaller (extractedOf (get_repo_name u) s entries).2 = true
      · exact (hasInstaller_iff _).mp hi
      · rw [if_neg hi] at hr
        exact absurd hr (by decide)
    · intro hf
      rw [if_pos ((hasInstaller_iff _).mpr hf)]
  · by_cases hi : hasInstaller (extractedOf (get_repo_name u) s entries).2 = true
    · rw [if_pos hi]
      exact Or.inl rfl
    · rw [if_neg hi]
      exact Or.inr rfl

/-- C4 witness: a deeply nested `InstallerReady.EXE` yields status `ready`. -/
theorem claim_C4_witness :
    (download_github_repo (pstr "github.com/me/MyRepo") (pstr "d")
        ⟨⟨.error (pstr "n")⟩, .ok ⟨.ok (), .ok 0, []⟩,
         .ok [FSTree.dir (pstr "MyRepo-main")
                [FSTree.dir (pstr "sub")
                  [FSTree.dir (pstr "dir") [FSTree.file (pstr "InstallerReady.EXE")]]]]⟩).result.status =
      pstr "ready" :=
  (claim_C4 (pstr "github.com/me/MyRepo") (pstr "d")
      ⟨⟨.error (pstr "n")⟩, .ok ⟨.ok (), .ok 0, []⟩,
       .ok [FSTree.dir (pstr "MyRepo-main")
              [FSTree.dir (pstr "sub")
                [FSTree.dir (pstr "dir") [FSTree.file (pstr "InstallerReady.EXE")]]]]⟩
      [FSTree.dir (pstr "MyRepo-main")
        [FSTree.dir (pstr "sub")
          [FSTree.dir (pstr "dir") [FSTree.file (pstr "InstallerReady.EXE")]]]]
      rfl (by decide)).1.mpr
    ⟨pstr "InstallerReady.EXE", by decide, by decide⟩

/-- C5: the extracted folder is the first directory among the children of
`save_path`, in listing order, whose name contains the resolved repository
name as a case-insensitive substring; when no child matches, `save_path`
itself is used. -/
theorem claim_C5 (u s : List Char) (env : RepoEnv) (entries : List FSTree)
    (hex : env.extract = Except.ok entries)
    (hst : (download_github_repo u s env).result.status ≠ pstr "error") :
    (∀ pre n cs suf,
      entries = pre ++ FSTree.dir n cs :: suf →
      (∃ p q, lowerStr n = p ++ lowerStr (get_repo_name u) ++ q) →
      (∀ m ds, FSTree.dir m ds ∈ pre →
        ¬ ∃ p q, lowerStr m = p ++ lowerStr (get_repo_name u) ++ q) →
      (download_github_repo u s env).result.path = some (pathJoin s n)) ∧
    ((∀ m ds, FSTree.dir m ds ∈ entries →
        ¬ ∃ p q, lowerStr m = p ++ lowerStr (get_repo_name u) ++ q) →
      (download_github_repo u s env).result.path = some s) := by
  rw [gh_success u s env entries hex hst]
  dsimp only
  constructor
  · rintro pre n cs suf rfl hn hpre
    have hfe : findExtracted (get_repo_name u) (pre ++ FSTree.dir n cs :: suf) = some (n, cs) := by
      apply findExtracted_first
      · intro m ds hm
        rcases hq : containsSub (lowerStr (get_repo_name u)) (lowerStr m) with _ | _
        · rfl
        · exact absurd ((containsSub_iff _ _).mp hq) (hpre m ds hm)
      · exact (containsSub_iff _ _).mpr hn
    simp [extractedOf, hfe]
  · intro hnone
    have hfe : findExtracted (get_repo_name u) entries = none := by
      apply findExtracted_none
      intro m ds hm
      rcases hq : containsSub (lowerStr (get_repo_name u)) (lowerStr m) with _ | _
      · rfl
      · exact absurd ((containsSub_iff _ _).mp hq) (hnone m ds hm)
    simp [extractedOf, hfe]

/-- C5 witness: with exactly one subdirectory `MyRepo-main` and resolved name
`MyRepo`, that subdirectory is selected. -/
theorem claim_C5_witness :
    (download_github_repo (pstr "github.com/me/MyRepo") (pstr "d")
        ⟨⟨.error (pstr "n")⟩, .ok ⟨.ok (), .ok 0, []⟩,
         .ok [FSTree.dir (pstr "MyRepo-main") []]⟩).result.path =
      some (pathJoin (pstr "d") (pstr "MyRepo-main")) :=
  (claim_C5 (pstr "github.com/me/MyRepo") (pstr "d")
      ⟨⟨.error (pstr "n")⟩, .ok ⟨.ok (), .ok 0, []⟩,
       .ok [FSTree.dir (pstr "MyRepo-main") []]⟩
      [FSTree.dir (pstr "MyRepo-main") []] rfl (by decide)).1
    [] (pstr "MyRepo-main") [] [] rfl
    ⟨[], pstr "-main", by decide⟩
    (fun m ds hm => absurd hm (List.not_mem_nil _))

/-! ## Claim C10 -/

/-- C10: when the release download fails after the destination file has been
opened and some chunks have been written, the function returns the absence
signal and emits the final failure report, but the file persists containing
exactly the bytes of the chunks written so far — nothing deletes it. -/
theorem claim_C10 (o r s : List Char) (a : Asset) (arest : List Asset)
    (total : Nat) (evs : List ChunkEv) (e : Exn) (rest : List ChunkEv) (envR : RelEnv)
    (h1 : envR.apiGet = .ok ⟨.ok (), .ok ⟨a :: arest⟩⟩)
    (h2 : envR.dlGet = .ok ⟨.ok (), .ok total, evs ++ ChunkEv.err e :: rest⟩)
    (h3 : envR.openRes = .ok ())
    (h4 : ∀ m, ChunkEv.err m ∉ evs) :
    (download_latest_release o r s envR).result = none ∧
    (download_latest_release o r s envR).file = some (joinChunks evs) ∧
    (download_latest_release o r s envR).trace.getLast? = some (1, relFail e) := by
  obtain ⟨apiGet, dlGet, openRes⟩ := envR
  simp only at h1 h2 h3
  subst h1
  subst h2
  subst h3
  obtain ⟨hres, hfl⟩ := relLoop_partial total a.name evs e rest 0 [] h4
  rcases hout : relLoop total a.name (evs ++ ChunkEv.err e :: rest) 0 [] with ⟨res, fl, tr⟩
  rw [hout] at hres hfl
  simp only at hres hfl
  subst hres
  refine ⟨?_, ?_, ?_⟩
  · unfold download_latest_release
    simp only [hout]
  · unfold download_latest_release
    simp only [hout]
    rw [hfl]
    simp
  · unfold download_latest_release
    simp only [hout]
    exact List.getLast?_concat _

/-- C10 witness: after one written chunk `[9, 9]` and a failing second chunk,
the result is the absence signal and the partial file holds exactly `[9, 9]`. -/
theorem claim_C10_witness :
    (download_latest_release (pstr "o") (pstr "r") (pstr "s")
        ⟨.ok ⟨.ok (), .ok ⟨[⟨pstr "url", pstr "a.exe"⟩]⟩⟩,
         .ok ⟨.ok (), .ok 4, [ChunkEv.chunk [9, 9], ChunkEv.err (pstr "boom")]⟩,
         .ok ()⟩).result = none ∧
    (download_latest_release (pstr "o") (pstr "r") (pstr "s")
        ⟨.ok ⟨.ok (), .ok ⟨[⟨pstr "url", pstr "a.exe"⟩]⟩⟩,
         .ok ⟨.ok (), .ok 4, [ChunkEv.chunk [9, 9], ChunkEv.err (pstr "boom")]⟩,
         .ok ()⟩).file = some (joinChunks [ChunkEv.chunk [9, 9]]) ∧
    (download_latest_release (pstr "o") (pstr "r") (pstr "s")
        ⟨.ok ⟨.ok (), .ok ⟨[⟨pstr "url", pstr "a.exe"⟩]⟩⟩,
         .ok ⟨.ok (), .ok 4, [ChunkEv.chunk [9, 9], ChunkEv.err (pstr "boom")]⟩,
         .ok ()⟩).trace.getLast? = some (1, relFail (pstr "boom")) :=
  claim_C10 (pstr "o") (pstr "r") (pstr "s") ⟨pstr "url", pstr "a.exe"⟩ [] 4
    [ChunkEv.chunk [9, 9]] (pstr "boom") []
    ⟨.ok ⟨.ok (), .ok ⟨[⟨pstr "url", pstr "a.exe"⟩]⟩⟩,
     .ok ⟨.ok (), .ok 4, [ChunkEv.chunk [9, 9], ChunkEv.err (pstr "boom")]⟩,
     .ok ()⟩
    rfl rfl rfl (by intro m; simp)
